import Mathlib

/-!
Verification development for the group-40 negotiation agents.

The Python sources are shallowly embedded here:
* `src/agents/group40/agent03/utils/opponent_model.py` (shared, identical copies
  live under `agent02/utils`, `agent04/utils`, `agent05/utils`):
  `ValueEstimator`, `IssueEstimator`, `OpponentModel`.
* `src/agents/group40/agent02/group40agent02.py`: `accept_condition`, `find_bid`,
  `_calc_max_w`.
* `src/agents/group40/agent04/group40agent04.py` and
  `src/agents/group40/agent05/group40agent05.py`: `accept_condition`, `find_bid`,
  `_calc_min_w`, the `all_bids_utility` precomputation in `notifyChange`.

Conventions of the embedding:
* Python `int` counters become `ℕ`.
* Python `float` / `Decimal` arithmetic is idealised as exact arithmetic.
  Quantities that the code keeps in `float`/`Decimal` but that are rational in
  every run (counts, weights, utilities coming from profiles, `random.uniform`
  draws) are embedded as `ℚ`; quantities produced by fractional powers
  (`** (1 - weight)`, `** 0.2`) are embedded as `ℝ` with `Real.rpow`.
* Code that raises a Python exception (`ZeroDivisionError`, `IndexError`)
  is embedded as an `Option` result, `none` meaning "raises".
* Python `dict`s keyed by values are embedded as functions `V → Option _`
  (`none` = key absent); `defaultdict(ValueEstimator)` inserts the default
  entry on first access, which the embedding performs with `Option.getD`.
-/

/-! ## Opponent model (`opponent_model.py`) -/

/-- Embedding of `ValueEstimator`: occurrence count and derived utility of one
discrete value (`opponent_model.py`, lines 136-151). -/
structure ValueEstimator where
  count : ℕ
  utility : ℝ

/-- `ValueEstimator.__init__`: `count = 0`, `utility = 0`. -/
def ValueEstimator.init : ValueEstimator := ⟨0, 0⟩

/-- `ValueEstimator.update`: `self.count += 1`. -/
def ValueEstimator.bump (ve : ValueEstimator) : ValueEstimator :=
  { ve with count := ve.count + 1 }

/-- `ValueEstimator.recalculate_utility(max_value_count, weight)`:
```
if weight < 1:
    mod_value_count = ((self.count + 1) ** (1 - weight)) - 1
    mod_max_value_count = ((max_value_count + 1) ** (1 - weight)) - 1
    self.utility = mod_value_count / mod_max_value_count
else:
    self.utility = 1
```
The fractional power forces `ℝ`; the test `weight < 1` is on the rational
weight and stays decidable. -/
noncomputable def ValueEstimator.recalculate_utility (ve : ValueEstimator)
    (max_value_count : ℕ) (weight : ℚ) : ValueEstimator :=
  if weight < 1 then
    { ve with utility :=
        (((ve.count : ℝ) + 1) ^ ((1 : ℝ) - (weight : ℝ)) - 1) /
          (((max_value_count : ℝ) + 1) ^ ((1 : ℝ) - (weight : ℝ)) - 1) }
  else
    { ve with utility := 1 }

variable {V : Type} [DecidableEq V] {I : Type} [DecidableEq I]

/-- Embedding of `IssueEstimator` (`opponent_model.py`, lines 89-132):
per-issue bid counter, running maximum value count, size of the issue's
value set, tracker dictionary and predicted weight. -/
structure IssueEstimator (V : Type) where
  bids_received : ℕ
  max_value_count : ℕ
  num_values : ℕ
  value_trackers : V → Option ValueEstimator
  weight : ℚ

/-- `IssueEstimator.__init__(value_set)` with `num_values = value_set.size()`;
the `defaultdict` starts empty and `weight = 0`. -/
def IssueEstimator.init (nv : ℕ) : IssueEstimator V :=
  ⟨0, 0, nv, fun _ => none, 0⟩

/-- `IssueEstimator.update(value)` (`opponent_model.py`, lines 102-126).
`none` models the `ZeroDivisionError` that Python raises when
`num_values == 0` (at `equal_shares = bids_received / num_values`) or when
`bids_received == equal_shares` (at the weight division; this happens exactly
when `num_values == 1`).  On success the updated tracker dictionary has had
`recalculate_utility(max_value_count, weight)` applied to every tracker. -/
noncomputable def IssueEstimator.update (e : IssueEstimator V) (v : V) :
    Option (IssueEstimator V) :=
  let bids := e.bids_received + 1
  let tracker := ((e.value_trackers v).getD ValueEstimator.init).bump
  let trackers : V → Option ValueEstimator :=
    fun w => if w = v then some tracker else e.value_trackers w
  let maxc := max tracker.count e.max_value_count
  if e.num_values = 0 then none
  else
    let equal_shares : ℚ := (bids : ℚ) / (e.num_values : ℚ)
    if (bids : ℚ) = equal_shares then none
    else
      let wt : ℚ := ((maxc : ℚ) - equal_shares) / ((bids : ℚ) - equal_shares)
      some { bids_received := bids
             max_value_count := maxc
             num_values := e.num_values
             value_trackers := fun w =>
               (trackers w).map (fun t => t.recalculate_utility maxc wt)
             weight := wt }

/-- `IssueEstimator.get_value_utility(value)`: stored utility for a previously
observed value, `0` for an unseen one. -/
def IssueEstimator.get_value_utility (e : IssueEstimator V) (v : V) : ℝ :=
  match e.value_trackers v with
  | some t => t.utility
  | none => 0

/-- A sequence of `IssueEstimator.update` calls; `none` as soon as one raises. -/
noncomputable def estRun (e : IssueEstimator V) : List V → Option (IssueEstimator V)
  | [] => some e
  | v :: vs =>
    match e.update v with
    | none => none
    | some e' => estRun e' vs

/-- Embedding of `OpponentModel` (`opponent_model.py`, lines 10-87): the list of
received offers, the domain's issues (dictionary key order) and one
`IssueEstimator` per issue.  A bid is a total map from issues to values. -/
structure OpponentModel (I V : Type) where
  offers : List (I → V)
  issues : List I
  estimators : I → IssueEstimator V

/-- `OpponentModel.__init__(domain)`: no offers, one fresh `IssueEstimator` per
issue, sized by the issue's value set. -/
def OpponentModel.init (issues : List I) (valueSet : I → Finset V) :
    OpponentModel I V :=
  ⟨[], issues, fun i => IssueEstimator.init (valueSet i).card⟩

/-- The per-issue loop of `OpponentModel.update`: update each issue's estimator
with the value the bid assigns to that issue, propagating a raise. -/
noncomputable def updateEstimators (bid : I → V) :
    List I → (I → IssueEstimator V) → Option (I → IssueEstimator V)
  | [], est => some est
  | i :: rest, est =>
    match (est i).update (bid i) with
    | none => none
    | some e' => updateEstimators bid rest (fun j => if j = i then e' else est j)

/-- `OpponentModel.update(bid)`: append the bid to `offers` and update every
issue estimator with the value offered for that issue. -/
noncomputable def OpponentModel.update (m : OpponentModel I V) (bid : I → V) :
    Option (OpponentModel I V) :=
  (updateEstimators bid m.issues m.estimators).map
    (fun est' => ⟨m.offers ++ [bid], m.issues, est'⟩)

/-- A sequence of `OpponentModel.update` calls; `none` as soon as one raises. -/
noncomputable def modelRun (m : OpponentModel I V) :
    List (I → V) → Option (OpponentModel I V)
  | [] => some m
  | b :: bs =>
    match m.update b with
    | none => none
    | some m' => modelRun m' bs

/-- `OpponentModel.get_predicted_utility(bid)` (`opponent_model.py`,
lines 27-58): `0` when no offer has been observed or the bid is `None`;
otherwise the predicted value utilities are weighted by the issue weights
renormalised to sum to `1` (uniform `1/n` split when the raw total is `0` —
over an empty issue list the Python comprehension produces `[]` and the sum
is `0`, so no division happens there either). -/
noncomputable def OpponentModel.get_predicted_utility (m : OpponentModel I V)
    (bid : Option (I → V)) : ℝ :=
  match bid with
  | none => 0
  | some b =>
    if m.offers.length = 0 then 0
    else
      let value_utilities : List ℝ :=
        m.issues.map (fun i => (m.estimators i).get_value_utility (b i))
      let issue_weights : List ℚ := m.issues.map (fun i => (m.estimators i).weight)
      let normalised : List ℚ :=
        if issue_weights.sum = 0 then
          issue_weights.map (fun _ => 1 / (issue_weights.length : ℚ))
        else
          issue_weights.map (fun iw => iw / issue_weights.sum)
      ((normalised.zip value_utilities).map (fun p => (p.1 : ℝ) * p.2)).sum

/-! ## Policy layer

The agent classes are embedded as pure functions of the state they read:
`u` is `self.profile.getUtility` (a `Decimal` in `[0,1]`, hence rational),
`ttb` is `self.time_to_bid` (receipt progress paired with the received bid),
`progress` is `self.progress.get(time() * 1000)`, `next_bid` is the result of
the `self.find_bid()` call made inside `accept_condition`, and `B` is the
type of bids. -/

variable {B : Type}

/-- `Group40Agent02._calc_max_w(start)` (also in agents 04/05): fold over
`time_to_bid`, taking the maximum of `profile.getUtility(bid)` over entries
with `t >= start`, starting from `Decimal(0.0)`. -/
def calc_max_w (u : B → ℚ) (ttb : List (ℚ × B)) (start : ℚ) : ℚ :=
  ttb.foldl (fun curr tb => if start ≤ tb.1 then max curr (u tb.2) else curr) 0

/-- `Group40Agent04._calc_min_w(start)` (also in agent 05): like `calc_max_w`
but a minimum starting from `Decimal(1.0)`. -/
def calc_min_w (u : B → ℚ) (ttb : List (ℚ × B)) (start : ℚ) : ℚ :=
  ttb.foldl (fun curr tb => if start ≤ tb.1 then min curr (u tb.2) else curr) 1

/-- Specification-style restatement of the phase-3 threshold: the maximum
utility among recorded offers received at progress `≥ start` (`0` when the
window is empty). -/
def windowMax (u : B → ℚ) (ttb : List (ℚ × B)) (start : ℚ) : ℚ :=
  ((ttb.filter (fun tb => decide (start ≤ tb.1))).map (fun tb => u tb.2)).foldr max 0

/-- `Group40Agent02.accept_condition(bid)` (`group40agent02.py`, lines 220-251):
`None` bid is rejected; otherwise four progress phases with boundaries
`0.3`, `0.6`, `0.99`.  `next_bid` is the bid returned by the inner
`self.find_bid()` call. -/
def accept_condition02 (u : B → ℚ) (ttb : List (ℚ × B)) (progress : ℚ)
    (next_bid : B) (bid : Option B) : Bool :=
  match bid with
  | none => false
  | some b =>
    let our_next_util := u next_bid
    let opponent_bid_util := u b
    if progress < 3/10 then
      decide (opponent_bid_util ≥ our_next_util * (102/100))
    else if progress < 6/10 then
      decide (opponent_bid_util ≥ our_next_util)
    else if progress < 99/100 then
      let w_start := progress - (1 - progress)
      let util_threshold := calc_max_w u ttb w_start
      decide (opponent_bid_util ≥ our_next_util) || decide (opponent_bid_util ≥ util_threshold)
    else
      true

/-- `Group40Agent04.accept_condition(bid)` (`group40agent04.py`, lines 267-318).
Parameters supply the ambient reads: `res_bid` is
`profile.getReservationBid()`, `maxTurn` is `self.max_time_for_turn`,
`rdraw` is the `random.uniform(0, 1)` draw.  The time-decayed margin
`delta = 0.7 + (1.0 - 0.7) * (1 - progress) ** 0.2` uses a fractional power,
hence lives in `ℝ` and the whole decision is a `Prop`.  The sequential
early-`return False` guards become negated conjuncts. -/
def accept_condition04 (u : B → ℚ) (res_bid : Option B) (ttb : List (ℚ × B))
    (progress : ℚ) (maxTurn : ℚ) (next_bid : B) (rdraw : ℚ) (bid : Option B) : Prop :=
  match bid with
  | none => False
  | some b =>
    let our_next_util := u next_bid
    let our_reservation_util : ℚ := (res_bid.map u).getD 0
    let opponent_bid_util := u b
    ¬(our_reservation_util > opponent_bid_util) ∧
      (let start := progress - (1 - progress)
       let min_opponent_bid_util := calc_min_w u ttb start
       let p_accept : ℚ :=
         if opponent_bid_util ≥ min_opponent_bid_util then 1
         else 1 - (min_opponent_bid_util - opponent_bid_util)
       let delta : ℝ := 7/10 + (1 - 7/10) * ((1 : ℝ) - (progress : ℝ)) ^ ((2 : ℝ)/10)
       let r_value : ℝ := (rdraw : ℝ) + delta
       ((p_accept : ℝ) - r_value ≥ 1/10) ∨
         (opponent_bid_util ≥ our_next_util * (102/100)) ∨
         (progress + maxTurn > 1))

/-- `Group40Agent05.accept_condition(bid)` (`group40agent05.py`, lines 246-305).
Same statistical core as agent 04 but with an extra leading guard: reject when
the reservation utility is `≥` our utility of the bid, or when the opponent
model predicts the counterpart values the bid more than we do while
`progress < 0.98`.  `predicted` is `opponent_model.get_predicted_utility`. -/
def accept_condition05 (u : B → ℚ) (res_bid : Option B) (predicted : B → ℝ)
    (ttb : List (ℚ × B)) (progress : ℚ) (maxTurn : ℚ) (next_bid : B) (rdraw : ℚ)
    (bid : Option B) : Prop :=
  match bid with
  | none => False
  | some b =>
    let reservation_bid_util : ℚ := (res_bid.map u).getD 0
    let own_utility := u b
    let expected_opponent_utility : ℝ := predicted b
    ¬(reservation_bid_util ≥ own_utility ∨
        (expected_opponent_utility > (own_utility : ℝ) ∧ progress < 98/100)) ∧
      accept_condition04 u res_bid ttb progress maxTurn next_bid rdraw (some b)

/-- Python's built-in banker's rounding (`round`), on exact rationals:
round half to even. -/
def pyRound (x : ℚ) : ℤ :=
  if x - ⌊x⌋ < 1/2 then ⌊x⌋
  else if 1/2 < x - ⌊x⌋ then ⌊x⌋ + 1
  else if Even ⌊x⌋ then ⌊x⌋ else ⌊x⌋ + 1

/-- The `all_bids_utility` precomputation in `notifyChange` of agents 04 and 05:
```
for i in range(0, all_bids_list.size() - 1):
    bid = all_bids_list.get(i)
    self.all_bids_utility[bid] = self.profile.getUtility(bid)
```
`allBids` stands for the external `AllBidsList` enumeration of the domain.
Note the loop runs `i = 0, …, size - 2`. -/
def all_bids_utility_table (u : B → ℚ) (allBids : List B) : List (B × ℚ) :=
  (List.range (allBids.length - 1)).filterMap
    (fun i => (allBids.get? i).map (fun b => (b, u b)))

/-- `Group40Agent04.find_bid` (`group40agent04.py`, lines 320-332): filter the
precomputed table by the fixed utility floor `0.9`, score survivors as
`predicted opponent utility + own utility`, sort descending, and index the
sorted list with `k`, standing for the `randint(0, round(len * 0.1))` draw.
`none` models the `IndexError` of `sorted_bids[index]`. -/
def find_bid04 (table : List (B × ℚ)) (predicted : B → ℚ) (k : ℕ) : Option B :=
  let possible_bids := table.filter (fun bu => decide (bu.2 ≥ 9/10))
  let scored := possible_bids.map (fun bu => (bu.1, predicted bu.1 + bu.2))
  let sorted_bids := scored.mergeSort (fun x y => decide (x.2 ≥ y.2))
  (sorted_bids.get? k).map Prod.fst

/-- `Group40Agent05.find_bid` (`group40agent05.py`, lines 307-325): the floor is
`1 - mean(given[ceil(len * 0.8):] or [1]) * progress` where `given` is the
list of own utilities of all received offers (`calculate_given_utility`);
the rest is as in agent 04.  (`len * 0.8` is idealised as the exact `4/5`
product; the float detail does not affect the sampled index.)
`lower_window05` is the floor
`1 - mean(given[ceil(len * 0.8):] or [1]) * progress`. -/
def lower_window05 (given : List ℚ) (progress : ℚ) : ℚ :=
  let tail := given.drop (⌈(given.length : ℚ) * (4/5)⌉).toNat
  let sample := if tail = [] then [(1 : ℚ)] else tail
  let avg_given_util := sample.sum / (sample.length : ℚ)
  1 - avg_given_util * progress

def find_bid05 (table : List (B × ℚ)) (predicted : B → ℚ) (given : List ℚ)
    (progress : ℚ) (k : ℕ) : Option B :=
  let possible_bids := table.filter (fun bu => decide (bu.2 ≥ lower_window05 given progress))
  let scored := possible_bids.map (fun bu => (bu.1, predicted bu.1 + bu.2))
  let sorted_bids := scored.mergeSort (fun x y => decide (x.2 ≥ y.2))
  (sorted_bids.get? k).map Prod.fst

open Classical in
/-- Python's `max(iterable, key=f)` on a non-empty list: the first element with
maximal key (later elements replace the best only when strictly greater). -/
noncomputable def argmax_first (score : V → ℝ) : List V → Option V
  | [] => none
  | v :: vs =>
    some (vs.foldl (fun best w => if score best < score w then w else best) v)

/-- The per-issue scoring loop shared by `Group40Agent02.find_bid` and the
specification's reading of it: each issue independently gets the value
maximising `time_pressure * our_weight * our_value_utility
+ opponent_weight * opponent_value_utility`, with
`time_pressure = 2 - progress ** (1 / 0.2)` (`1 / 0.2 == 5.0` exactly in
floating point). -/
noncomputable def find_bid_weighted (values : I → List V) (progress : ℝ)
    (our_weight : I → ℝ) (our_value_util : I → V → ℝ)
    (opp_weight : I → ℝ) (opp_value_util : I → V → ℝ) : I → Option V :=
  fun i =>
    let time_pressure : ℝ := 2 - progress ^ (5 : ℕ)
    argmax_first
      (fun v => time_pressure * our_weight i * our_value_util i v
        + opp_weight i * opp_value_util i v) (values i)

/-- `Group40Agent02.find_bid` (`group40agent02.py`, lines 253-281) as written:
the opponent-side weights and utilities are read from the agent's **own**
profile (`opponent_weights = self.profile.getWeights()`,
`opponent_utilities = self.profile.getUtilities()`, both marked
`# TODO Use opponent model`). -/
noncomputable def find_bid02 (values : I → List V) (progress : ℝ)
    (our_weight : I → ℝ) (our_value_util : I → V → ℝ) : I → Option V :=
  find_bid_weighted values progress our_weight our_value_util our_weight our_value_util

/-- `Group40Agent02.find_bid` as the specification describes it: the
opponent-side weight and value utility are obtained by consulting the
opponent preference estimator. -/
noncomputable def find_bid02_spec (values : I → List V) (progress : ℝ)
    (our_weight : I → ℝ) (our_value_util : I → V → ℝ)
    (m : OpponentModel I V) : I → Option V :=
  find_bid_weighted values progress our_weight our_value_util
    (fun i => ((m.estimators i).weight : ℝ))
    (fun i v => (m.estimators i).get_value_utility v)

/-! ## Estimator run invariants -/

/-- `recalculate_utility` leaves the occurrence count unchanged. -/
theorem ValueEstimator.count_recalculate (t : ValueEstimator) (m : ℕ) (w : ℚ) :
    (t.recalculate_utility m w).count = t.count := by
  unfold ValueEstimator.recalculate_utility
  split <;> rfl

/-- The utility stored by `recalculate_utility`, as a function of the count,
the maximum count and the weight. -/
theorem ValueEstimator.utility_recalculate (t : ValueEstimator) (m : ℕ) (w : ℚ) :
    (t.recalculate_utility m w).utility =
      if w < 1 then
        (((t.count : ℝ) + 1) ^ ((1 : ℝ) - (w : ℝ)) - 1) /
          (((m : ℝ) + 1) ^ ((1 : ℝ) - (w : ℝ)) - 1)
      else 1 := by
  unfold ValueEstimator.recalculate_utility
  split <;> rfl

/-- Invariant tying an `IssueEstimator` to the sequence `seen` of values fed to
it since `IssueEstimator.init nv`. -/
structure EstInv (nv : ℕ) (seen : List V) (e : IssueEstimator V) : Prop where
  bids_eq : e.bids_received = seen.length
  nv_eq : e.num_values = nv
  tracker_count : ∀ v, match e.value_trackers v with
    | some t => t.count = seen.count v ∧ 1 ≤ t.count
    | none => seen.count v = 0
  count_le_max : ∀ v, seen.count v ≤ e.max_value_count
  empty_state : seen = [] → e.max_value_count = 0 ∧ e.weight = 0
  max_attained : seen ≠ [] → ∃ v ∈ seen, seen.count v = e.max_value_count
  weight_eq : seen ≠ [] →
    e.weight = ((e.max_value_count : ℚ) - (seen.length : ℚ) / (nv : ℚ)) /
      ((seen.length : ℚ) - (seen.length : ℚ) / (nv : ℚ))
  utility_coherent : ∀ v t, e.value_trackers v = some t →
    t.utility = if e.weight < 1 then
        (((t.count : ℝ) + 1) ^ ((1 : ℝ) - (e.weight : ℝ)) - 1) /
          (((e.max_value_count : ℝ) + 1) ^ ((1 : ℝ) - (e.weight : ℝ)) - 1)
      else 1

/-- The invariant holds at initialisation. -/
theorem estInv_init (nv : ℕ) : EstInv nv [] (IssueEstimator.init (V := V) nv) := by
  refine ⟨rfl, rfl, ?_, ?_, fun _ => ⟨rfl, rfl⟩, fun h => absurd rfl h, fun h => absurd rfl h, ?_⟩
  · intro v
    simp [IssueEstimator.init]
  · intro v
    simp [IssueEstimator.init]
  · intro v t h
    simp [IssueEstimator.init] at h

/-- Characterisation of a successful `IssueEstimator.update`: the guards force
`2 ≤ num_values`, and all fields of the result are explicit. -/
theorem IssueEstimator.update_some {e : IssueEstimator V} {v : V} {e' : IssueEstimator V}
    (h : e.update v = some e') :
    2 ≤ e.num_values ∧
    e'.bids_received = e.bids_received + 1 ∧
    e'.num_values = e.num_values ∧
    e'.max_value_count =
      max (((e.value_trackers v).getD ValueEstimator.init).count + 1) e.max_value_count ∧
    e'.weight = ((e'.max_value_count : ℚ) - ((e.bids_received : ℚ) + 1) / (e.num_values : ℚ)) /
      (((e.bids_received : ℚ) + 1) - ((e.bids_received : ℚ) + 1) / (e.num_values : ℚ)) ∧
    e'.value_trackers = fun w =>
      (if w = v then some ((e.value_trackers v).getD ValueEstimator.init).bump
        else e.value_trackers w).map
        (fun t => t.recalculate_utility e'.max_value_count e'.weight) := by
  unfold IssueEstimator.update at h
  by_cases h0 : e.num_values = 0
  · rw [if_pos h0] at h
    cases h
  · rw [if_neg h0] at h
    by_cases h1 : ((e.bids_received + 1 : ℕ) : ℚ) =
        ((e.bids_received + 1 : ℕ) : ℚ) / (e.num_values : ℚ)
    · rw [if_pos h1] at h
      cases h
    · rw [if_neg h1] at h
      have h2 : 2 ≤ e.num_values := by
        rcases Nat.lt_or_ge e.num_values 2 with hlt | hge
        · interval_cases hnv : e.num_values
          · exact absurd rfl h0
          · exact absurd (by norm_num) h1
        · exact hge
      obtain rfl := (Option.some_inj.mp h).symm
      exact ⟨h2, rfl, rfl, by simp [ValueEstimator.bump], by push_cast; ring_nf, rfl⟩

/-- One successful `update` preserves the invariant, extending `seen` by the
offered value. -/
theorem estInv_update {nv : ℕ} {seen : List V} {e e' : IssueEstimator V} {v : V}
    (hI : EstInv nv seen e) (h : e.update v = some e') :
    EstInv nv (seen ++ [v]) e' := by
  obtain ⟨h2, hb, hn, hmax, hw, htr⟩ := IssueEstimator.update_some h
  have hc : ((e.value_trackers v).getD ValueEstimator.init).count = seen.count v := by
    have ht := hI.tracker_count v
    cases hv : e.value_trackers v with
    | some t => rw [hv] at ht; simp [hv, ht.1]
    | none => rw [hv] at ht; simp [hv, ht, ValueEstimator.init]
  have htrw : ∀ w : V, e'.value_trackers w =
      (if w = v then some ((e.value_trackers v).getD ValueEstimator.init).bump
        else e.value_trackers w).map
        (fun t => t.recalculate_utility e'.max_value_count e'.weight) := by
    intro w
    rw [htr]
  have hcv : (seen ++ [v]).count v = seen.count v + 1 := by
    simp [List.count_append]
  have hcw : ∀ w : V, w ≠ v → (seen ++ [v]).count w = seen.count w := by
    intro w hwv
    simp [List.count_append, List.count_singleton', hwv]
  constructor
  · rw [hb, hI.bids_eq]
    simp
  · rw [hn, hI.nv_eq]
  · intro w
    rw [htrw w]
    by_cases hwv : w = v
    · subst hwv
      simp only [if_pos rfl, Option.map_some']
      refine ⟨?_, ?_⟩
      · rw [ValueEstimator.count_recalculate, ValueEstimator.bump, hc, hcv]
      · rw [ValueEstimator.count_recalculate]
        exact Nat.succ_le_succ (Nat.zero_le _)
    · rw [if_neg hwv]
      have ht := hI.tracker_count w
      cases hv : e.value_trackers w with
      | some t =>
        rw [hv] at ht
        simp only [Option.map_some']
        exact ⟨by rw [ValueEstimator.count_recalculate, ht.1, hcw w hwv],
          by rw [ValueEstimator.count_recalculate]; exact ht.2⟩
      | none =>
        rw [hv] at ht
        simp only [Option.map_none']
        rw [hcw w hwv]
        exact ht
  · intro w
    rw [hmax, hc]
    by_cases hwv : w = v
    · subst hwv
      rw [hcv]
      exact le_max_left _ _
    · rw [hcw w hwv]
      exact le_trans (hI.count_le_max w) (le_max_right _ _)
  · intro habs
    exact absurd habs (by simp)
  · intro _
    rw [hmax, hc]
    rcases le_or_lt e.max_value_count (seen.count v + 1) with hle | hlt
    · refine ⟨v, by simp, ?_⟩
      rw [hcv, max_eq_left hle]
    · by_cases hseen : seen = []
      · subst hseen
        have := (hI.empty_state rfl).1
        simp at hlt
        omega
      · obtain ⟨w, hwmem, hwcount⟩ := hI.max_attained hseen
        have hwv : w ≠ v := by
          intro hwv
          subst hwv
          omega
        refine ⟨w, by simp [hwmem], ?_⟩
        rw [hcw w hwv, hwcount, max_eq_right (le_of_lt hlt)]
  · intro _
    rw [hw, hI.nv_eq, hI.bids_eq]
    have : ((seen ++ [v]).length : ℚ) = (seen.length : ℚ) + 1 := by
      simp
    rw [this]
  · intro w t h'
    rw [htrw w] at h'
    have hform : ∀ t₀ : ValueEstimator,
        t = t₀.recalculate_utility e'.max_value_count e'.weight →
        t.utility = if e'.weight < 1 then
            (((t.count : ℝ) + 1) ^ ((1 : ℝ) - (e'.weight : ℝ)) - 1) /
              (((e'.max_value_count : ℝ) + 1) ^ ((1 : ℝ) - (e'.weight : ℝ)) - 1)
          else 1 := by
      intro t₀ ht₀
      subst ht₀
      rw [ValueEstimator.utility_recalculate, ValueEstimator.count_recalculate]
    by_cases hwv : w = v
    · rw [if_pos hwv, Option.map_some'] at h'
      exact hform _ (Option.some_inj.mp h').symm
    · rw [if_neg hwv] at h'
      cases hv : e.value_trackers w with
      | some t₀ =>
        rw [hv, Option.map_some'] at h'
        exact hform _ (Option.some_inj.mp h').symm
      | none =>
        rw [hv, Option.map_none'] at h'
        cases h'

/-- The invariant after a successful run from an arbitrary invariant state. -/
theorem estInv_run_aux {nv : ℕ} (vs : List V) :
    ∀ (seen : List V) (e e' : IssueEstimator V),
    EstInv nv seen e → estRun e vs = some e' → EstInv nv (seen ++ vs) e' := by
  induction vs with
  | nil =>
    intro seen e e' hI h
    unfold estRun at h
    obtain rfl := Option.some_inj.mp h
    simpa using hI
  | cons v vs ih =>
    intro seen e e' hI h
    unfold estRun at h
    cases hu : e.update v with
    | none => rw [hu] at h; cases h
    | some e₁ =>
      rw [hu] at h
      have := ih (seen ++ [v]) e₁ e' (estInv_update hI hu) h
      simpa using this

/-- The invariant after a successful run from a fresh estimator. -/
theorem estInv_run {nv : ℕ} {vs : List V} {e' : IssueEstimator V}
    (h : estRun (IssueEstimator.init nv) vs = some e') : EstInv nv vs e' := by
  simpa using estInv_run_aux vs [] (IssueEstimator.init nv) e' (estInv_init nv) h

/-- Pigeonhole: if every element of `vs` lies in `S` and `M` dominates every
occurrence count, then `vs.length ≤ M * S.card`. -/
theorem length_le_max_mul_card {S : Finset V} {vs : List V}
    (hvs : ∀ v ∈ vs, v ∈ S) {M : ℕ} (hM : ∀ v, vs.count v ≤ M) :
    vs.length ≤ M * S.card := by
  have h1 : ∑ a ∈ S, (vs : Multiset V).count a = Multiset.card (vs : Multiset V) :=
    Multiset.sum_count_eq_card (fun a ha => by simpa using hvs a (by simpa using ha))
  have h3 : ∑ a ∈ S, (vs : Multiset V).count a ≤ ∑ _a ∈ S, M :=
    Finset.sum_le_sum (fun a _ => by simpa using hM a)
  rw [h1, Finset.sum_const, smul_eq_mul] at h3
  simpa [Nat.mul_comm] using h3

/-- The weight quotient `(M - n/nv) / (n - n/nv)` lies in `[0, 1]` whenever
`2 ≤ nv`, `1 ≤ n`, `M ≤ n` and `n ≤ M * nv`. -/
theorem weight_quotient_bounds {nv n M : ℕ} (h2 : 2 ≤ nv) (hn : 1 ≤ n)
    (hMn : M ≤ n) (hpig : n ≤ M * nv) :
    0 ≤ ((M : ℚ) - (n : ℚ) / (nv : ℚ)) / ((n : ℚ) - (n : ℚ) / (nv : ℚ)) ∧
      ((M : ℚ) - (n : ℚ) / (nv : ℚ)) / ((n : ℚ) - (n : ℚ) / (nv : ℚ)) ≤ 1 := by
  have hnv : (0 : ℚ) < (nv : ℚ) := by positivity
  have h2q : (2 : ℚ) ≤ (nv : ℚ) := by exact_mod_cast h2
  have hnq : (1 : ℚ) ≤ (n : ℚ) := by exact_mod_cast hn
  have hden : (0 : ℚ) < (n : ℚ) - (n : ℚ) / (nv : ℚ) := by
    rw [sub_pos, div_lt_iff₀ hnv]
    nlinarith
  constructor
  · apply div_nonneg _ hden.le
    rw [sub_nonneg, div_le_iff₀ hnv]
    exact_mod_cast hpig
  · rw [div_le_one hden]
    have hMq : (M : ℚ) ≤ (n : ℚ) := by exact_mod_cast hMn
    linarith

/-- Bounds on an estimator's fields after any successful run on values drawn
from a set `S` of at least two values. -/
theorem estRun_bounds {S : Finset V} (hS : 2 ≤ S.card) {vs : List V}
    (hvs : ∀ v ∈ vs, v ∈ S) {e : IssueEstimator V}
    (h : estRun (IssueEstimator.init S.card) vs = some e) :
    e.max_value_count ≤ e.bids_received ∧
    e.bids_received ≤ e.max_value_count * e.num_values ∧
    0 ≤ e.weight ∧ e.weight ≤ 1 := by
  have hI := estInv_run h
  have hnv : e.num_values = S.card := hI.nv_eq
  have hbids : e.bids_received = vs.length := hI.bids_eq
  by_cases hvs0 : vs = []
  · subst hvs0
    obtain ⟨hm0, hw0⟩ := hI.empty_state rfl
    simp [hm0, hw0, hbids]
  · obtain ⟨w, _hwmem, hwcount⟩ := hI.max_attained hvs0
    have hmax_le : e.max_value_count ≤ vs.length := by
      rw [← hwcount]
      exact List.count_le_length w vs
    have hpig : vs.length ≤ e.max_value_count * S.card :=
      length_le_max_mul_card hvs hI.count_le_max
    have hn1 : 1 ≤ vs.length := by
      cases vs with
      | nil => exact absurd rfl hvs0
      | cons _ _ => simp
    have hwq := hI.weight_eq hvs0
    have hbounds := weight_quotient_bounds hS hn1 hmax_le hpig
    refine ⟨hbids ▸ hmax_le, ?_, ?_, ?_⟩
    · rw [hbids, hnv]
      exact hpig
    · rw [hwq]
      exact hbounds.1
    · rw [hwq]
      exact hbounds.2

/-- A successful update sequence starting with at least one value forces a
value set of at least two values (otherwise the weight division raises). -/
theorem estRun_cons_two_le {nv : ℕ} {v : V} {vs : List V} {e : IssueEstimator V}
    (h : estRun (IssueEstimator.init nv) (v :: vs) = some e) : 2 ≤ nv := by
  unfold estRun at h
  cases hu : (IssueEstimator.init (V := V) nv).update v with
  | none => rw [hu] at h; cases h
  | some e₁ => exact (IssueEstimator.update_some hu).1

/-- Explicit state of a fresh two-value estimator after one update. -/
theorem update_init_two (v : V) :
    (IssueEstimator.init (V := V) 2).update v = some
      { bids_received := 1
        max_value_count := 1
        num_values := 2
        value_trackers := fun w => if w = v then some ⟨1, 1⟩ else none
        weight := 1 } := by
  unfold IssueEstimator.update IssueEstimator.init
  norm_num [ValueEstimator.bump, ValueEstimator.recalculate_utility, ValueEstimator.init]

/-- Explicit state of a fresh two-value estimator after one run of length one. -/
theorem estRun_init_two_single (v : V) :
    estRun (IssueEstimator.init 2) [v] = some
      { bids_received := 1
        max_value_count := 1
        num_values := 2
        value_trackers := fun w => if w = v then some ⟨1, 1⟩ else none
        weight := 1 } := by
  unfold estRun
  rw [update_init_two v]
  rfl

/-- Explicit state of a fresh two-value estimator after observing the same
value twice. -/
theorem estRun_init_two_pair (v : V) :
    estRun (IssueEstimator.init 2) [v, v] = some
      { bids_received := 2
        max_value_count := 2
        num_values := 2
        value_trackers := fun w => if w = v then some ⟨2, 1⟩ else none
        weight := 1 } := by
  have h2 : (IssueEstimator.mk 1 1 2
      (fun w => if w = v then some ⟨1, 1⟩ else none) 1).update v = some
      { bids_received := 2
        max_value_count := 2
        num_values := 2
        value_trackers := fun w => if w = v then some ⟨2, 1⟩ else none
        weight := 1 } := by
    unfold IssueEstimator.update
    norm_num [ValueEstimator.bump, ValueEstimator.recalculate_utility]
    funext w
    by_cases hwv : w = v <;> simp [hwv]
  unfold estRun
  rw [update_init_two v]
  unfold estRun
  rw [h2]
  rfl

/-! ## Claims C4 and C10: issue estimator safety and invariants -/

/-- Explicit one-update estimator state over a two-value issue, value `0`
observed once (used to instantiate hypotheses of the invariant theorems). -/
noncomputable def estEx1 : IssueEstimator ℕ :=
  { bids_received := 1
    max_value_count := 1
    num_values := 2
    value_trackers := fun w => if w = 0 then some ⟨1, 1⟩ else none
    weight := 1 }

/-- C4: contrary to the claim, `IssueEstimator.update` is not total for an
issue with exactly one possible value: the very first update hits
`bids_received == equal_shares` and the weight computation raises
`ZeroDivisionError` (embedded as `none`) instead of being special-cased to
weight `1.0`. -/
theorem C4_single_value_update_raises (v : V) :
    (IssueEstimator.init (V := V) 1).update v = none ∧
    estRun (IssueEstimator.init (V := V) 1) [v] = none := by
  have hu : (IssueEstimator.init (V := V) 1).update v = none := by
    unfold IssueEstimator.update IssueEstimator.init
    norm_num
  refine ⟨hu, ?_⟩
  unfold estRun
  rw [hu]

/-- C10: for an issue with at least two possible values, after every successful
sequence of `IssueEstimator.update` calls with values from the issue's value
set, `max_value_count ≤ bids_received`,
`bids_received ≤ max_value_count * num_values`, and the computed weight
`(max_value_count - equal_shares) / (bids_received - equal_shares)` lies in
`[0, 1]`. -/
theorem C10_issue_estimator_invariant {S : Finset V} (hS : 2 ≤ S.card)
    {vs : List V} (hvs : ∀ v ∈ vs, v ∈ S) {e : IssueEstimator V}
    (h : estRun (IssueEstimator.init S.card) vs = some e) :
    e.max_value_count ≤ e.bids_received ∧
    e.bids_received ≤ e.max_value_count * e.num_values ∧
    0 ≤ e.weight ∧ e.weight ≤ 1 :=
  estRun_bounds hS hvs h

/-- Witness for C10 at the concrete issue `S = {0, 1}` and update sequence
`[0]`. -/
theorem C10_issue_estimator_invariant_witness :
    ((2 : ℕ) ≤ ({0, 1} : Finset ℕ).card) ∧
    (∀ v ∈ [(0 : ℕ)], v ∈ ({0, 1} : Finset ℕ)) ∧
    estRun (IssueEstimator.init ({0, 1} : Finset ℕ).card) [(0 : ℕ)] = some estEx1 ∧
    (estEx1.max_value_count ≤ estEx1.bids_received ∧
     estEx1.bids_received ≤ estEx1.max_value_count * estEx1.num_values ∧
     0 ≤ estEx1.weight ∧ estEx1.weight ≤ 1) := by
  have hcard : ({0, 1} : Finset ℕ).card = 2 := by decide
  have hrun : estRun (IssueEstimator.init ({0, 1} : Finset ℕ).card) [(0 : ℕ)] =
      some estEx1 := by
    rw [hcard]
    exact estRun_init_two_single 0
  exact ⟨by decide, by decide, hrun,
    C10_issue_estimator_invariant (by decide) (by decide) hrun⟩

/-! ## Claim C3: value utilities -/

/-- Positivity of `(M+1)^e - 1` for `1 ≤ M` and a positive exponent. -/
theorem rpow_term_pos {M : ℕ} (hM : 1 ≤ M) {e : ℝ} (he : 0 < e) :
    0 < ((M : ℝ) + 1) ^ e - 1 := by
  have hx : (1 : ℝ) < (M : ℝ) + 1 := by
    have : (1 : ℝ) ≤ (M : ℝ) := by exact_mod_cast hM
    linarith
  have h1 : (1 : ℝ) < ((M : ℝ) + 1) ^ e :=
    (Real.one_lt_rpow_iff_of_pos (by linarith)).mpr (Or.inl ⟨hx, he⟩)
  linarith

/-- The recalculated utility of a tracked value lies in `[0, 1]`
(case `weight < 1`). -/
theorem formula_bounds {c M : ℕ} (hc : 1 ≤ c) (hM : c ≤ M) {w : ℚ} (hw : w < 1) :
    0 ≤ (((c : ℝ) + 1) ^ ((1 : ℝ) - (w : ℝ)) - 1) /
        (((M : ℝ) + 1) ^ ((1 : ℝ) - (w : ℝ)) - 1) ∧
      (((c : ℝ) + 1) ^ ((1 : ℝ) - (w : ℝ)) - 1) /
        (((M : ℝ) + 1) ^ ((1 : ℝ) - (w : ℝ)) - 1) ≤ 1 := by
  have he : (0 : ℝ) < 1 - (w : ℝ) := by
    have : (w : ℝ) < 1 := by exact_mod_cast hw
    linarith
  have hMone : 1 ≤ M := le_trans hc hM
  have hden := rpow_term_pos hMone he
  have hnum : 0 ≤ ((c : ℝ) + 1) ^ ((1 : ℝ) - (w : ℝ)) - 1 := by
    have h1 : (1 : ℝ) ≤ ((c : ℝ) + 1) ^ ((1 : ℝ) - (w : ℝ)) :=
      Real.one_le_rpow (by linarith [(Nat.cast_nonneg c : (0 : ℝ) ≤ (c : ℝ))]) he.le
    linarith
  have hmono : ((c : ℝ) + 1) ^ ((1 : ℝ) - (w : ℝ)) ≤
      ((M : ℝ) + 1) ^ ((1 : ℝ) - (w : ℝ)) := by
    apply Real.rpow_le_rpow (by positivity) _ he.le
    have : (c : ℝ) ≤ (M : ℝ) := by exact_mod_cast hM
    linarith
  exact ⟨div_nonneg hnum hden.le, (div_le_one hden).mpr (by linarith)⟩

/-- Any stored value utility of an estimator satisfying the invariant lies in
`[0, 1]`. -/
theorem get_value_utility_bounds {nv : ℕ} {seen : List V} {e : IssueEstimator V}
    (hI : EstInv nv seen e) (v : V) :
    0 ≤ e.get_value_utility v ∧ e.get_value_utility v ≤ 1 := by
  unfold IssueEstimator.get_value_utility
  cases hv : e.value_trackers v with
  | none => norm_num
  | some t =>
    show 0 ≤ t.utility ∧ t.utility ≤ 1
    have hcoh := hI.utility_coherent v t hv
    have htc := hI.tracker_count v
    rw [hv] at htc
    have hcM : t.count ≤ e.max_value_count := by
      rw [htc.1]
      exact hI.count_le_max v
    by_cases hw : e.weight < 1
    · rw [hcoh, if_pos hw]
      exact formula_bounds htc.2 hcM hw
    · rw [hcoh, if_neg hw]
      norm_num

/-- A tracked value whose count attains `max_value_count` has utility 1. -/
theorem tracked_max_utility_eq_one {nv : ℕ} {seen : List V} {e : IssueEstimator V}
    (hI : EstInv nv seen e) {v : V} {t : ValueEstimator}
    (hv : e.value_trackers v = some t) (hcmax : t.count = e.max_value_count) :
    t.utility = 1 := by
  have hcoh := hI.utility_coherent v t hv
  have htc := hI.tracker_count v
  rw [hv] at htc
  have hM1 : 1 ≤ e.max_value_count := hcmax ▸ htc.2
  by_cases hw : e.weight < 1
  · rw [hcoh, if_pos hw, hcmax]
    have he : (0 : ℝ) < 1 - (e.weight : ℝ) := by
      have : (e.weight : ℝ) < 1 := by exact_mod_cast hw
      linarith
    exact div_self (ne_of_gt (rpow_term_pos hM1 he))
  · rw [hcoh, if_neg hw]

/-- C3: after every successful sequence of updates of an issue estimator, each
tracked value's stored utility equals
`(((count+1)^(1-weight)) - 1) / (((max_value_count+1)^(1-weight)) - 1)` when
`weight < 1` and equals `1` when `weight ≥ 1`; the most-frequently-offered
value has utility exactly `1.0`, and every value scores at most `1`. -/
theorem C3_value_utilities {nv : ℕ} {vs : List V} {e : IssueEstimator V}
    (h : estRun (IssueEstimator.init nv) vs = some e) :
    (∀ v t, e.value_trackers v = some t →
      (e.weight < 1 →
        t.utility = (((t.count : ℝ) + 1) ^ ((1 : ℝ) - (e.weight : ℝ)) - 1) /
          (((e.max_value_count : ℝ) + 1) ^ ((1 : ℝ) - (e.weight : ℝ)) - 1)) ∧
      (1 ≤ e.weight → t.utility = 1) ∧
      (t.count = e.max_value_count → t.utility = 1) ∧
      t.utility ≤ 1) ∧
    (vs ≠ [] → ∃ v t, e.value_trackers v = some t ∧
      t.count = e.max_value_count ∧ t.utility = 1) := by
  have hI := estInv_run h
  constructor
  · intro v t hv
    have hcoh := hI.utility_coherent v t hv
    refine ⟨?_, ?_, ?_, ?_⟩
    · intro hw
      rw [hcoh, if_pos hw]
    · intro hw
      rw [hcoh, if_neg (not_lt.mpr hw)]
    · intro hcmax
      exact tracked_max_utility_eq_one hI hv hcmax
    · have hub : e.get_value_utility v ≤ 1 := (get_value_utility_bounds hI v).2
      unfold IssueEstimator.get_value_utility at hub
      rw [hv] at hub
      exact hub
  · intro hvs0
    obtain ⟨v, hvmem, hvcount⟩ := hI.max_attained hvs0
    have htc := hI.tracker_count v
    have hpos : 1 ≤ vs.count v := List.count_pos_iff.mpr hvmem
    cases hv : e.value_trackers v with
    | none =>
      rw [hv] at htc
      omega
    | some t =>
      rw [hv] at htc
      have hcmax : t.count = e.max_value_count := by rw [htc.1, hvcount]
      exact ⟨v, t, hv, hcmax, tracked_max_utility_eq_one hI hv hcmax⟩

/-- Witness for C3 at the two-value issue with update sequence `[0]`. -/
theorem C3_value_utilities_witness :
    estRun (IssueEstimator.init 2) [(0 : ℕ)] = some estEx1 ∧
    ([(0 : ℕ)] ≠ []) ∧
    (∃ v t, estEx1.value_trackers v = some t ∧
      t.count = estEx1.max_value_count ∧ t.utility = 1) := by
  have hrun : estRun (IssueEstimator.init 2) [(0 : ℕ)] = some estEx1 :=
    estRun_init_two_single 0
  exact ⟨hrun, by simp, (C3_value_utilities hrun).2 (by simp)⟩

/-! ## Claim C1: predicted utility -/

/-- Characterisation of a successful `updateEstimators` pass over distinct
issues: each listed issue's estimator is updated once, all others are kept. -/
theorem updateEstimators_some {bid : I → V} :
    ∀ (is_ : List I) (est est' : I → IssueEstimator V), is_.Nodup →
    updateEstimators bid is_ est = some est' →
    (∀ i ∈ is_, (est i).update (bid i) = some (est' i)) ∧
    (∀ j, j ∉ is_ → est' j = est j) := by
  intro is_
  induction is_ with
  | nil =>
    intro est est' _ h
    unfold updateEstimators at h
    obtain rfl := Option.some_inj.mp h
    exact ⟨by simp, fun j _ => rfl⟩
  | cons i rest ih =>
    intro est est' hnd h
    unfold updateEstimators at h
    cases hu : (est i).update (bid i) with
    | none => rw [hu] at h; cases h
    | some e₁ =>
      rw [hu] at h
      obtain ⟨hnotmem, hndrest⟩ := List.nodup_cons.mp hnd
      obtain ⟨hmem, hout⟩ := ih (fun j => if j = i then e₁ else est j) est' hndrest h
      constructor
      · intro j hj
        rcases List.mem_cons.mp hj with rfl | hjr
        · have houti := hout j hnotmem
          simp only [if_pos rfl] at houti
          rw [houti]
          exact hu
        · have hji : j ≠ i := fun hji => hnotmem (hji ▸ hjr)
          have hmemj := hmem j hjr
          simp only [if_neg hji] at hmemj
          exact hmemj
      · intro j hj
        have hji : j ≠ i := fun h' => hj (h' ▸ List.mem_cons_self i rest)
        have hjr : j ∉ rest := fun h' => hj (List.mem_cons_of_mem _ h')
        have := hout j hjr
        simp only [if_neg hji] at this
        exact this

/-- Factorisation of a successful `modelRun`: the issues are unchanged, the
offers accumulate, and each issue's estimator underwent exactly the updates
with the values that the received bids assign to that issue. -/
theorem modelRun_factor {bids : List (I → V)} :
    ∀ (m m' : OpponentModel I V), m.issues.Nodup →
    modelRun m bids = some m' →
    m'.issues = m.issues ∧ m'.offers = m.offers ++ bids ∧
    (∀ i ∈ m.issues,
      estRun (m.estimators i) (bids.map (fun b => b i)) = some (m'.estimators i)) := by
  induction bids with
  | nil =>
    intro m m' _ h
    unfold modelRun at h
    obtain rfl := Option.some_inj.mp h
    exact ⟨rfl, by simp, fun i _ => rfl⟩
  | cons b bs ih =>
    intro m m' hnd h
    unfold modelRun at h
    cases hu : m.update b with
    | none => rw [hu] at h; cases h
    | some m₁ =>
      rw [hu] at h
      unfold OpponentModel.update at hu
      cases hue : updateEstimators b m.issues m.estimators with
      | none => rw [hue] at hu; cases hu
      | some est₁ =>
        rw [hue, Option.map_some'] at hu
        obtain rfl := Option.some_inj.mp hu
        obtain ⟨hupd, _⟩ := updateEstimators_some m.issues m.estimators est₁ hnd hue
        obtain ⟨hiss, hoff, hest⟩ :=
          ih ⟨m.offers ++ [b], m.issues, est₁⟩ m' hnd h
        refine ⟨hiss, by simpa using hoff, ?_⟩
        intro i hi
        have hesti := hest i hi
        simp only [List.map_cons]
        unfold estRun
        rw [hupd i hi]
        exact hesti

/-- Dividing each list element by a constant divides the sum. -/
theorem list_sum_map_div (ws : List ℚ) (t : ℚ) :
    (ws.map (fun w => w / t)).sum = ws.sum / t := by
  induction ws with
  | nil => simp
  | cons w ws ih => simp [ih, add_div]

/-- The renormalised issue weight computed inside `get_predicted_utility`:
`weight / total`, or the equal `1 / num_issues` split when the raw total
weight is `0`. -/
noncomputable def normalisedWeight (m : OpponentModel I V) (i : I) : ℚ :=
  if (m.issues.map (fun j => (m.estimators j).weight)).sum = 0 then
    1 / (m.issues.length : ℚ)
  else
    (m.estimators i).weight / (m.issues.map (fun j => (m.estimators j).weight)).sum

/-- Closed form of `get_predicted_utility` on a non-null bid once at least one
offer is recorded: the sum over all issues of the renormalised issue weight
times the predicted value utility of the bid's value for that issue. -/
theorem get_predicted_utility_eq (m : OpponentModel I V) (b : I → V)
    (hne : m.offers.length ≠ 0) :
    m.get_predicted_utility (some b) =
      (m.issues.map (fun i =>
        ((normalisedWeight m i : ℚ) : ℝ) *
          (m.estimators i).get_value_utility (b i))).sum := by
  simp only [OpponentModel.get_predicted_utility, normalisedWeight]
  rw [if_neg hne]
  by_cases htot : (m.issues.map (fun j => (m.estimators j).weight)).sum = 0
  · simp only [htot, List.zip_map', List.map_map, List.length_map, if_pos]
    congr 1
  · simp only [htot, List.zip_map', List.map_map, List.length_map, if_neg, ite_false]
    congr 1

/-- Renormalised weights are nonnegative when all raw weights are. -/
theorem normalisedWeight_nonneg (m : OpponentModel I V)
    (hw : ∀ i ∈ m.issues, 0 ≤ (m.estimators i).weight) :
    ∀ i ∈ m.issues, 0 ≤ normalisedWeight m i := by
  intro i hi
  unfold normalisedWeight
  by_cases htot : (m.issues.map (fun j => (m.estimators j).weight)).sum = 0
  · rw [if_pos htot]
    positivity
  · rw [if_neg htot]
    have hsum_nonneg : 0 ≤ (m.issues.map (fun j => (m.estimators j).weight)).sum := by
      apply List.sum_nonneg
      intro x hx
      obtain ⟨j, hj, rfl⟩ := List.mem_map.mp hx
      exact hw j hj
    exact div_nonneg (hw i hi) hsum_nonneg

/-- Renormalised weights sum to 1 over a non-empty issue list with nonnegative
raw weights. -/
theorem normalisedWeight_sum_one (m : OpponentModel I V) (hiss : m.issues ≠ []) :
    (m.issues.map (fun i => normalisedWeight m i)).sum = 1 := by
  unfold normalisedWeight
  have hlen : (m.issues.length : ℚ) ≠ 0 := by
    simpa using (List.length_pos.mpr hiss).ne'
  by_cases htot : (m.issues.map (fun j => (m.estimators j).weight)).sum = 0
  · simp only [htot, if_pos rfl, ite_self, reduceIte]
    rw [List.map_const', List.sum_replicate, nsmul_eq_mul]
    field_simp
  · simp only [htot, ite_false, if_neg htot]
    have hmm : (m.issues.map (fun i => (m.estimators i).weight /
        (m.issues.map (fun j => (m.estimators j).weight)).sum)) =
        ((m.issues.map (fun j => (m.estimators j).weight)).map
          (fun w => w / (m.issues.map (fun j => (m.estimators j).weight)).sum)) := by
      rw [List.map_map]
      rfl
    rw [hmm, list_sum_map_div, div_self htot]

/-- Weighted sums with nonnegative rational weights and utilities in `[0, 1]`
are nonnegative, and bounded by the sum of the weights. -/
theorem sum_weighted_bounds {l : List I} (nw : I → ℚ) (vu : I → ℝ)
    (hnw : ∀ i ∈ l, 0 ≤ nw i) (hvu : ∀ i ∈ l, 0 ≤ vu i ∧ vu i ≤ 1) :
    0 ≤ (l.map (fun i => ((nw i : ℚ) : ℝ) * vu i)).sum ∧
      (l.map (fun i => ((nw i : ℚ) : ℝ) * vu i)).sum ≤ (((l.map nw).sum : ℚ) : ℝ) := by
  induction l with
  | nil => simp
  | cons i l ih =>
    obtain ⟨ih1, ih2⟩ := ih (fun j hj => hnw j (List.mem_cons_of_mem _ hj))
      (fun j hj => hvu j (List.mem_cons_of_mem _ hj))
    have hnwi := hnw i (List.mem_cons_self i l)
    have hvui := hvu i (List.mem_cons_self i l)
    have hnwiR : (0 : ℝ) ≤ ((nw i : ℚ) : ℝ) := by exact_mod_cast hnwi
    constructor
    · simp only [List.map_cons, List.sum_cons]
      have hterm : 0 ≤ ((nw i : ℚ) : ℝ) * vu i := mul_nonneg hnwiR hvui.1
      linarith
    · simp only [List.map_cons, List.sum_cons]
      have h1 : ((nw i : ℚ) : ℝ) * vu i ≤ ((nw i : ℚ) : ℝ) := by
        nlinarith [hvui.2]
      have hcast : (((nw i + (l.map nw).sum : ℚ)) : ℝ) =
          ((nw i : ℚ) : ℝ) + (((l.map nw).sum : ℚ) : ℝ) := by
        push_cast
        ring
      rw [hcast]
      linarith

/-- C1: for every bid, `get_predicted_utility` returns `0` if no offers have
been observed or the bid is `None`; once at least one offer is observed it
returns the sum over all issues of the renormalised issue weight times the
predicted value utility of the bid's value, and the result lies in `[0, 1]`
(for runs over legal bids, i.e. bids assigning each issue a value from its
value set). -/
theorem C1_predicted_utility {issues : List I} (hnd : issues.Nodup)
    {valueSet : I → Finset V} {bids : List (I → V)} {m : OpponentModel I V}
    (hrun : modelRun (OpponentModel.init issues valueSet) bids = some m)
    (hleg : ∀ b ∈ bids, ∀ i ∈ issues, b i ∈ valueSet i) :
    m.get_predicted_utility none = 0 ∧
    (bids = [] → ∀ b, m.get_predicted_utility (some b) = 0) ∧
    (bids ≠ [] → ∀ b,
      m.get_predicted_utility (some b) =
        (m.issues.map (fun i => ((normalisedWeight m i : ℚ) : ℝ) *
          (m.estimators i).get_value_utility (b i))).sum ∧
      0 ≤ m.get_predicted_utility (some b) ∧
      m.get_predicted_utility (some b) ≤ 1) := by
  obtain ⟨hiss, hoff, hest⟩ :=
    modelRun_factor (OpponentModel.init issues valueSet) m hnd hrun
  have hiss' : m.issues = issues := hiss
  have hoff' : m.offers = bids := by simpa using hoff
  refine ⟨rfl, ?_, ?_⟩
  · intro hb b
    subst hb
    have hlen0 : m.offers.length = 0 := by rw [hoff']; rfl
    simp [OpponentModel.get_predicted_utility, hlen0]
  · intro hb b
    have hne : m.offers.length ≠ 0 := by
      rw [hoff']
      simpa using hb
    have hper : ∀ i ∈ m.issues,
        (0 ≤ (m.estimators i).weight ∧ (m.estimators i).weight ≤ 1) ∧
        (0 ≤ (m.estimators i).get_value_utility (b i) ∧
          (m.estimators i).get_value_utility (b i) ≤ 1) := by
      intro i hi
      have hi' : i ∈ issues := by rwa [hiss'] at hi
      have hesti := hest i hi'
      obtain ⟨v, vs, hmap⟩ : ∃ v vs, bids.map (fun bb => bb i) = v :: vs := by
        cases hbids : bids with
        | nil => exact absurd hbids hb
        | cons b0 bs => exact ⟨b0 i, bs.map (fun bb => bb i), by simp⟩
      have hesti' : estRun (IssueEstimator.init (valueSet i).card) (v :: vs) =
          some (m.estimators i) := by
        rw [← hmap]
        exact hesti
      have hS : 2 ≤ (valueSet i).card := estRun_cons_two_le hesti'
      have hvals : ∀ w ∈ v :: vs, w ∈ valueSet i := by
        rw [← hmap]
        intro w hw
        obtain ⟨bb, hbb, rfl⟩ := List.mem_map.mp hw
        exact hleg bb hbb i hi'
      have hbounds := estRun_bounds hS hvals hesti'
      have hI := estInv_run hesti'
      exact ⟨⟨hbounds.2.2.1, hbounds.2.2.2⟩, get_value_utility_bounds hI (b i)⟩
    have hnw : ∀ i ∈ m.issues, 0 ≤ normalisedWeight m i :=
      normalisedWeight_nonneg m (fun i hi => (hper i hi).1.1)
    have hsum := sum_weighted_bounds (normalisedWeight m)
      (fun i => (m.estimators i).get_value_utility (b i)) hnw
      (fun i hi => (hper i hi).2)
    refine ⟨get_predicted_utility_eq m b hne, ?_, ?_⟩
    · rw [get_predicted_utility_eq m b hne]
      exact hsum.1
    · rw [get_predicted_utility_eq m b hne]
      by_cases hissnil : m.issues = []
      · simp [hissnil]
      · have h1 := normalisedWeight_sum_one m hissnil
        refine le_trans hsum.2 ?_
        rw [h1]
        norm_num

/-- Concrete opponent model over one issue (`0`) with value set `{0, 1}`,
after observing the single bid that assigns value `0` everywhere. -/
noncomputable def modelEx : OpponentModel ℕ ℕ :=
  ⟨[fun _ => 0], [0],
    fun j => if j = 0 then estEx1 else IssueEstimator.init ({0, 1} : Finset ℕ).card⟩

/-- The concrete model state is reachable by one `OpponentModel.update`. -/
theorem modelRun_example :
    modelRun (OpponentModel.init [(0 : ℕ)] (fun _ => ({0, 1} : Finset ℕ)))
      [fun _ => (0 : ℕ)] = some modelEx := by
  have hcard : ({0, 1} : Finset ℕ).card = 2 := by decide
  have hupd : (OpponentModel.init [(0 : ℕ)]
      (fun _ => ({0, 1} : Finset ℕ))).update (fun _ => (0 : ℕ)) = some modelEx := by
    unfold OpponentModel.update OpponentModel.init updateEstimators
    have h1 : (IssueEstimator.init (V := ℕ) ({0, 1} : Finset ℕ).card).update 0 =
        some estEx1 := by
      rw [hcard]
      exact update_init_two 0
    rw [h1]
    unfold updateEstimators
    simp only [Option.map_some']
    rfl
  unfold modelRun
  rw [hupd]
  rfl

/-- Witness for C1 at the concrete one-issue domain and single observed bid. -/
theorem C1_predicted_utility_witness :
    [(0 : ℕ)].Nodup ∧
    modelRun (OpponentModel.init [(0 : ℕ)] (fun _ => ({0, 1} : Finset ℕ)))
      [fun _ => (0 : ℕ)] = some modelEx ∧
    (∀ b ∈ [fun _ => (0 : ℕ)], ∀ i ∈ [(0 : ℕ)], b i ∈ ({0, 1} : Finset ℕ)) ∧
    (modelEx.get_predicted_utility none = 0 ∧
     0 ≤ modelEx.get_predicted_utility (some (fun _ => 0)) ∧
     modelEx.get_predicted_utility (some (fun _ => 0)) ≤ 1) := by
  have hnd : [(0 : ℕ)].Nodup := by decide
  have hleg : ∀ b ∈ [fun _ => (0 : ℕ)], ∀ i ∈ [(0 : ℕ)], b i ∈ ({0, 1} : Finset ℕ) := by
    intro b hb i hi
    rw [List.mem_singleton] at hb
    subst hb
    rw [List.mem_singleton] at hi
    subst hi
    decide
  have hC1 := C1_predicted_utility hnd modelRun_example hleg
  refine ⟨hnd, modelRun_example, hleg, hC1.1, ?_, ?_⟩
  · exact (hC1.2.2 (by simp) (fun _ => 0)).2.1
  · exact (hC1.2.2 (by simp) (fun _ => 0)).2.2

/-! ## Claims C2, C9, C6: acceptance policies -/

/-- Shifting the seed of a `foldr max` by one extra element. -/
theorem foldr_max_shift (l : List ℚ) : ∀ a x : ℚ,
    l.foldr max (max a x) = max x (l.foldr max a) := by
  induction l with
  | nil => intro a x; exact max_comm a x
  | cons y l ih =>
    intro a x
    simp only [List.foldr_cons, ih]
    rw [max_left_comm]

/-- The running fold of `_calc_max_w` equals the maximum over the filtered
window (seeded with the same `Decimal(0.0)`). -/
theorem calc_max_w_eq_windowMax (u : B → ℚ) (ttb : List (ℚ × B)) (s : ℚ) :
    calc_max_w u ttb s = windowMax u ttb s := by
  unfold calc_max_w windowMax
  suffices h : ∀ a : ℚ,
      ttb.foldl (fun curr tb => if s ≤ tb.1 then max curr (u tb.2) else curr) a =
        ((ttb.filter (fun tb => decide (s ≤ tb.1))).map (fun tb => u tb.2)).foldr max a by
    exact h 0
  induction ttb with
  | nil => intro a; rfl
  | cons tb rest ih =>
    intro a
    by_cases hs : s ≤ tb.1
    · have hfilter : List.filter (fun p => decide (s ≤ p.1)) (tb :: rest) =
          tb :: List.filter (fun p => decide (s ≤ p.1)) rest := by
        simp [List.filter_cons, hs]
      rw [List.foldl_cons, if_pos hs, ih (max a (u tb.2)), foldr_max_shift,
        hfilter, List.map_cons, List.foldr_cons]
    · have hfilter : List.filter (fun p => decide (s ≤ p.1)) (tb :: rest) =
          List.filter (fun p => decide (s ≤ p.1)) rest := by
        simp [List.filter_cons, hs]
      rw [List.foldl_cons, if_neg hs, ih a, hfilter]

/-- C2: the phased-threshold acceptance rule of agent 02 on a non-null bid:
accept in `[0, 0.3)` iff the offered utility is at least `1.02` times our next
counter-offer's utility (boundary inclusive), in `[0.3, 0.6)` iff it is at
least our next counter-offer's utility, in `[0.6, 0.99)` iff it is at least
our next counter-offer's utility or at least the maximum utility among offers
received at progress `≥ 2p - 1`, and always in `[0.99, 1]`. -/
theorem C2_accept_phases (u : B → ℚ) (ttb : List (ℚ × B)) (progress : ℚ)
    (next_bid : B) (b : B) :
    accept_condition02 u ttb progress next_bid (some b) = true ↔
      ((progress < 3/10 ∧ u b ≥ u next_bid * (102/100)) ∨
       (3/10 ≤ progress ∧ progress < 6/10 ∧ u b ≥ u next_bid) ∨
       (6/10 ≤ progress ∧ progress < 99/100 ∧
         (u b ≥ u next_bid ∨ u b ≥ windowMax u ttb (2 * progress - 1))) ∨
       99/100 ≤ progress) := by
  have hw : progress - (1 - progress) = 2 * progress - 1 := by ring
  simp only [accept_condition02, hw, calc_max_w_eq_windowMax]
  split_ifs with h1 h2 h3
  · simp only [decide_eq_true_eq]
    constructor
    · intro h
      exact Or.inl ⟨h1, h⟩
    · rintro (⟨_, h⟩ | ⟨hge, _, _⟩ | ⟨hge, _, _⟩ | hge) <;> first | exact h | linarith
  · simp only [decide_eq_true_eq]
    constructor
    · intro h
      exact Or.inr (Or.inl ⟨le_of_not_lt h1, h2, h⟩)
    · rintro (⟨hlt, _⟩ | ⟨_, _, h⟩ | ⟨hge, _, _⟩ | hge) <;> first | exact h | linarith
  · simp only [Bool.or_eq_true, decide_eq_true_eq]
    constructor
    · intro h
      exact Or.inr (Or.inr (Or.inl ⟨le_of_not_lt h2, h3, h⟩))
    · rintro (⟨hlt, _⟩ | ⟨_, hlt, _⟩ | ⟨_, _, h⟩ | hge) <;> first | exact h | linarith
  · simp only [true_iff]
    exact Or.inr (Or.inr (Or.inr (le_of_not_lt h3)))

/-- C9: in every strategy variant, the acceptance rule rejects the null
(no-offer-yet) bid, for every progress value and every state. -/
theorem C9_null_bid_rejected (u : B → ℚ) (ttb : List (ℚ × B)) (progress : ℚ)
    (next_bid : B) (res_bid : Option B) (maxTurn : ℚ) (rdraw : ℚ)
    (predicted : B → ℝ) :
    accept_condition02 u ttb progress next_bid none = false ∧
    ¬ accept_condition04 u res_bid ttb progress maxTurn next_bid rdraw none ∧
    ¬ accept_condition05 u res_bid predicted ttb progress maxTurn next_bid rdraw none := by
  refine ⟨rfl, ?_, ?_⟩ <;> exact fun h => h

/-- C6: the statistical acceptance rule (agents 04 and 05) never accepts a bid
whose own-utility is strictly below the reservation floor (the utility of the
reservation bid, or 0 if absent), whatever the progress, random draw and
offer history. -/
theorem C6_reservation_floor (u : B → ℚ) (res_bid : Option B) (ttb : List (ℚ × B))
    (progress : ℚ) (maxTurn : ℚ) (next_bid : B) (rdraw : ℚ) (predicted : B → ℝ)
    (b : B) (hfloor : u b < (res_bid.map u).getD 0) :
    ¬ accept_condition04 u res_bid ttb progress maxTurn next_bid rdraw (some b) ∧
    ¬ accept_condition05 u res_bid predicted ttb progress maxTurn next_bid rdraw (some b) := by
  constructor
  · intro h
    exact h.1 hfloor
  · intro h
    exact h.1 (Or.inl (le_of_lt hfloor))

/-- Witness for C6: reservation bid `1` with utility `1`, incoming bid `0`
with utility `0`. -/
theorem C6_reservation_floor_witness :
    ((fun n => (n : ℚ)) (0 : ℕ) < ((some (1 : ℕ)).map (fun n => (n : ℚ))).getD 0) ∧
    ¬ accept_condition04 (fun n => (n : ℚ)) (some 1) [] 0 0 0 0 (some 0) ∧
    ¬ accept_condition05 (fun n => (n : ℚ)) (some 1) (fun _ => 0) [] 0 0 0 0 (some 0) := by
  have hfloor : (fun n => (n : ℚ)) (0 : ℕ) <
      ((some (1 : ℕ)).map (fun n => (n : ℚ))).getD 0 := by
    simp
  have h := C6_reservation_floor (fun n => (n : ℚ)) (some 1) [] 0 0 0 0
    (fun _ => 0) 0 hfloor
  exact ⟨hfloor, h.1, h.2⟩

/-! ## Claims C7 and C8: precomputed bid table and top-10% sampling -/

/-- C7: contrary to the claim, the precomputation loop
`for i in range(0, all_bids_list.size() - 1)` stops one short of the
enumeration size, so the final enumerated bid never becomes a key of
`all_bids_utility`: with the two-bid enumeration `[0, 1]`, the key set is
just `[0]` and bid `1` is missing. -/
theorem C7_last_bid_missing :
    (1 : ℕ) ∈ [0, 1] ∧
    (all_bids_utility_table (fun _ => (1 : ℚ)) [0, 1]).map Prod.fst = [0] ∧
    (1 : ℕ) ∉ (all_bids_utility_table (fun _ => (1 : ℚ)) [0, 1]).map Prod.fst := by
  refine ⟨by decide, ?_, ?_⟩
  · simp [all_bids_utility_table, List.range_succ]
  · simp [all_bids_utility_table, List.range_succ]

/-- Python's banker's rounding is dominated by round-half-up. -/
theorem pyRound_le_floor_half (x : ℚ) : pyRound x ≤ ⌊x + 1/2⌋ := by
  unfold pyRound
  have hfl := Int.floor_le x
  split_ifs with h1 h2 h3
  · exact Int.le_floor.mpr (by push_cast; linarith)
  · exact Int.le_floor.mpr (by push_cast; linarith)
  · exact Int.le_floor.mpr (by push_cast; linarith)
  · have hr : x - ⌊x⌋ = 1/2 := le_antisymm (le_of_not_lt h2) (le_of_not_lt h1)
    exact Int.le_floor.mpr (by push_cast; linarith)

/-- Any draw from `randint(0, round(n * 0.1))` stays strictly below `n` for
`n ≥ 1`. -/
theorem sample_index_lt {n : ℕ} (hn : 1 ≤ n) {k : ℕ}
    (hk : (k : ℤ) ≤ pyRound ((n : ℚ) / 10)) : k < n := by
  have h1 := pyRound_le_floor_half ((n : ℚ) / 10)
  have h2 : ⌊(n : ℚ) / 10 + 1/2⌋ < (n : ℤ) := by
    rw [Int.floor_lt]
    push_cast
    have hnq : (1 : ℚ) ≤ (n : ℚ) := by exact_mod_cast hn
    linarith
  have : (k : ℤ) < (n : ℤ) := by omega
  exact_mod_cast this

/-- A list index strictly below the length yields a `some` lookup. -/
theorem get_isSome_of_lt {α : Type} {l : List α} {k : ℕ} (h : k < l.length) :
    (l.get? k).isSome := by
  rw [List.get?_eq_getElem?, List.getElem?_eq_getElem h]
  rfl

/-- C8 (counterexample to the claim as stated): with the one-entry table
`[(0, 1/2)]` the `0.9` utility floor of agent 04 filters out every candidate;
the `randint(0, round(0 * 0.1))` draw range still contains `0`, and the
selection `sorted_bids[0]` indexes out of range (`none`, an `IndexError`). -/
theorem C8_empty_filter_out_of_range :
    (0 : ℤ) ≤ pyRound
      (((([((0 : ℕ), (1/2 : ℚ))]).filter (fun bu => decide (bu.2 ≥ 9/10))).length : ℚ) / 10) ∧
    find_bid04 [((0 : ℕ), (1/2 : ℚ))] (fun _ => 0) 0 = none := by
  have hfilter : ([((0 : ℕ), (1/2 : ℚ))]).filter (fun bu => decide (bu.2 ≥ 9/10)) = [] := by
    simp [List.filter_cons]
    norm_num
  constructor
  · rw [hfilter]
    norm_num [pyRound]
  · simp only [find_bid04, hfilter, List.map_nil, List.mergeSort_nil]
    rfl

/-- C8 (amended): whenever at least one candidate survives the utility-floor
filter, every draw in the `randint(0, round(len * 0.1))` range selects an
existing candidate, in both agent 04's and agent 05's `find_bid`; in
particular this holds with exactly one or two surviving candidates. -/
theorem C8_sampling_in_range (table04 table05 : List (B × ℚ)) (pred04 pred05 : B → ℚ)
    (given : List ℚ) (progress : ℚ) (k04 k05 : ℕ)
    (h04 : table04.filter (fun bu => decide (bu.2 ≥ 9/10)) ≠ [])
    (hk04 : (k04 : ℤ) ≤ pyRound
      (((table04.filter (fun bu => decide (bu.2 ≥ 9/10))).length : ℚ) / 10))
    (h05 : table05.filter (fun bu => decide (bu.2 ≥ lower_window05 given progress)) ≠ [])
    (hk05 : (k05 : ℤ) ≤ pyRound
      (((table05.filter
          (fun bu => decide (bu.2 ≥ lower_window05 given progress))).length : ℚ) / 10)) :
    (find_bid04 table04 pred04 k04).isSome ∧
    (find_bid05 table05 pred05 given progress k05).isSome := by
  constructor
  · have hn : 1 ≤ (table04.filter (fun bu => decide (bu.2 ≥ 9/10))).length :=
      List.length_pos.mpr h04
    have hlt := sample_index_lt hn hk04
    simp only [find_bid04, Option.isSome_map']
    apply get_isSome_of_lt
    rw [List.length_mergeSort, List.length_map]
    exact hlt
  · have hn : 1 ≤ (table05.filter
        (fun bu => decide (bu.2 ≥ lower_window05 given progress))).length :=
      List.length_pos.mpr h05
    have hlt := sample_index_lt hn hk05
    simp only [find_bid05, Option.isSome_map']
    apply get_isSome_of_lt
    rw [List.length_mergeSort, List.length_map]
    exact hlt

/-- Witness for the amended C8: one candidate survives each filter, and the
only legal draw `0` selects it in both variants. -/
theorem C8_sampling_in_range_witness :
    ([((0 : ℕ), (95/100 : ℚ))].filter (fun bu => decide (bu.2 ≥ 9/10)) ≠ []) ∧
    ((0 : ℤ) ≤ pyRound
      ((([((0 : ℕ), (95/100 : ℚ))].filter
        (fun bu => decide (bu.2 ≥ 9/10))).length : ℚ) / 10)) ∧
    ([((0 : ℕ), (95/100 : ℚ))].filter
      (fun bu => decide (bu.2 ≥ lower_window05 [] 1)) ≠ []) ∧
    ((0 : ℤ) ≤ pyRound
      ((([((0 : ℕ), (95/100 : ℚ))].filter
        (fun bu => decide (bu.2 ≥ lower_window05 [] 1))).length : ℚ) / 10)) ∧
    (find_bid04 [((0 : ℕ), (95/100 : ℚ))] (fun _ => 0) 0).isSome ∧
    (find_bid05 [((0 : ℕ), (95/100 : ℚ))] (fun _ => 0) [] 1 0).isSome := by
  have hf04 : [((0 : ℕ), (95/100 : ℚ))].filter (fun bu => decide (bu.2 ≥ 9/10)) =
      [((0 : ℕ), (95/100 : ℚ))] := by
    simp only [List.filter_cons, List.filter_nil]
    norm_num
  have hlw : lower_window05 [] 1 = 0 := by
    norm_num [lower_window05]
  have hf05 : [((0 : ℕ), (95/100 : ℚ))].filter
      (fun bu => decide (bu.2 ≥ lower_window05 [] 1)) = [((0 : ℕ), (95/100 : ℚ))] := by
    rw [hlw]
    simp only [List.filter_cons, List.filter_nil]
    norm_num
  have hfl : ⌊(1 : ℚ)/10⌋ = 0 := by
    rw [Int.floor_eq_zero_iff]
    constructor <;> norm_num
  have hr : pyRound ((1 : ℚ)/10) = 0 := by
    unfold pyRound
    rw [hfl]
    norm_num
  have h04 : [((0 : ℕ), (95/100 : ℚ))].filter (fun bu => decide (bu.2 ≥ 9/10)) ≠ [] := by
    rw [hf04]
    simp
  have hk04 : (0 : ℤ) ≤ pyRound
      ((([((0 : ℕ), (95/100 : ℚ))].filter
        (fun bu => decide (bu.2 ≥ 9/10))).length : ℚ) / 10) := by
    rw [hf04]
    simpa using le_of_eq hr.symm
  have h05 : [((0 : ℕ), (95/100 : ℚ))].filter
      (fun bu => decide (bu.2 ≥ lower_window05 [] 1)) ≠ [] := by
    rw [hf05]
    simp
  have hk05 : (0 : ℤ) ≤ pyRound
      ((([((0 : ℕ), (95/100 : ℚ))].filter
        (fun bu => decide (bu.2 ≥ lower_window05 [] 1))).length : ℚ) / 10) := by
    rw [hf05]
    simpa using le_of_eq hr.symm
  have hmain := C8_sampling_in_range [((0 : ℕ), (95/100 : ℚ))] [((0 : ℕ), (95/100 : ℚ))]
    (fun _ => 0) (fun _ => 0) [] 1 0 0 h04 hk04 h05 hk05
  exact ⟨h04, hk04, h05, hk05, hmain.1, hmain.2⟩

/-! ## Claim C5: agent 02 bid generation -/

open Classical in
/-- The fold inside `argmax_first` returns an element of `b :: l` whose score
dominates the score of `b` and of every element of `l`. -/
theorem foldl_argmax_spec (score : V → ℝ) (l : List V) : ∀ b : V,
    (l.foldl (fun best w => if score best < score w then w else best) b ∈ b :: l) ∧
    score b ≤ score (l.foldl (fun best w => if score best < score w then w else best) b) ∧
    (∀ v ∈ l,
      score v ≤ score (l.foldl (fun best w => if score best < score w then w else best) b)) := by
  induction l with
  | nil =>
    intro b
    exact ⟨List.mem_cons_self _ _, le_refl _, by simp⟩
  | cons w l ih =>
    intro b
    by_cases hbw : score b < score w
    · simp only [List.foldl_cons, if_pos hbw]
      obtain ⟨hmem, hle, hall⟩ := ih w
      refine ⟨List.mem_cons_of_mem _ hmem, le_trans (le_of_lt hbw) hle, ?_⟩
      intro v hv
      rcases List.mem_cons.mp hv with rfl | hvl
      · exact hle
      · exact hall v hvl
    · simp only [List.foldl_cons, if_neg hbw]
      obtain ⟨hmem, hle, hall⟩ := ih b
      refine ⟨?_, hle, ?_⟩
      · rcases List.mem_cons.mp hmem with h | h
        · rw [h]
          exact List.mem_cons_self _ _
        · exact List.mem_cons_of_mem _ (List.mem_cons_of_mem _ h)
      · intro v hv
        rcases List.mem_cons.mp hv with rfl | hvl
        · exact le_trans (le_of_not_lt hbw) hle
        · exact hall v hvl

/-- C5 (amended): `Group40Agent02.find_bid` assigns each issue a value of its
value list maximising `time_pressure * our_weight * our_value_utility
+ opponent_weight * opponent_value_utility` with
`time_pressure = 2 - progress ^ 5` (`1 / 0.2 = 5`), where — as the code stands
(`# TODO Use opponent model`) — the opponent-side weight and value utility are
read from the agent's **own** profile rather than from the opponent model. -/
theorem C5_find_bid_maximises (values : I → List V) (progress : ℝ)
    (our_weight : I → ℝ) (our_value_util : I → V → ℝ) (i : I) (c : V)
    (h : find_bid02 values progress our_weight our_value_util i = some c) :
    c ∈ values i ∧ ∀ v ∈ values i,
      (2 - progress ^ (5 : ℕ)) * our_weight i * our_value_util i v
          + our_weight i * our_value_util i v ≤
        (2 - progress ^ (5 : ℕ)) * our_weight i * our_value_util i c
          + our_weight i * our_value_util i c := by
  unfold find_bid02 find_bid_weighted at h
  cases hv : values i with
  | nil =>
    rw [hv] at h
    cases h
  | cons v vs =>
    rw [hv] at h
    simp only [argmax_first] at h
    obtain rfl := Option.some_inj.mp h
    obtain ⟨hmem, hle, hall⟩ := foldl_argmax_spec
      (fun w => (2 - progress ^ (5 : ℕ)) * our_weight i * our_value_util i w
        + our_weight i * our_value_util i w) vs v
    refine ⟨hmem, ?_⟩
    intro w hw
    rcases List.mem_cons.mp hw with rfl | hwl
    · exact hle
    · exact hall w hwl

/-- Witness for the amended C5 on a one-issue, one-value domain. -/
theorem C5_find_bid_maximises_witness :
    find_bid02 (fun _ => [(0 : ℕ)]) 0 (fun _ : ℕ => (1 : ℝ)) (fun _ _ => 1) 0 = some 0 ∧
    ((0 : ℕ) ∈ [(0 : ℕ)] ∧ ∀ v ∈ [(0 : ℕ)],
      ((2 : ℝ) - (0 : ℝ) ^ (5 : ℕ)) * 1 * 1 + 1 * 1 ≤
        (2 - (0 : ℝ) ^ (5 : ℕ)) * 1 * 1 + 1 * 1) := by
  have h : find_bid02 (fun _ => [(0 : ℕ)]) 0 (fun _ : ℕ => (1 : ℝ)) (fun _ _ => 1) 0 =
      some 0 := rfl
  have hm := C5_find_bid_maximises (fun _ => [(0 : ℕ)]) 0 (fun _ : ℕ => (1 : ℝ))
    (fun _ _ => 1) 0 0 h
  exact ⟨h, hm.1, fun v hv => le_refl _⟩

/-- Second update with the same value on the one-update two-value state. -/
theorem update_second_same (v : V) :
    (IssueEstimator.mk 1 1 2 (fun w => if w = v then some ⟨1, 1⟩ else none)
      (1 : ℚ)).update v = some
      { bids_received := 2
        max_value_count := 2
        num_values := 2
        value_trackers := fun w => if w = v then some ⟨2, 1⟩ else none
        weight := 1 } := by
  unfold IssueEstimator.update
  norm_num [ValueEstimator.bump, ValueEstimator.recalculate_utility]
  funext w
  by_cases hwv : w = v <;> simp [hwv]

/-- One-update estimator state over the two-value issue, value `1` observed. -/
noncomputable def estExA : IssueEstimator ℕ :=
  { bids_received := 1
    max_value_count := 1
    num_values := 2
    value_trackers := fun w => if w = 1 then some ⟨1, 1⟩ else none
    weight := 1 }

/-- Two-update estimator state over the two-value issue, value `1` twice. -/
noncomputable def estExB : IssueEstimator ℕ :=
  { bids_received := 2
    max_value_count := 2
    num_values := 2
    value_trackers := fun w => if w = 1 then some ⟨2, 1⟩ else none
    weight := 1 }

/-- Concrete opponent model after the counterpart offered value `1` twice on
the single two-value issue `0`. -/
noncomputable def modelEx2 : OpponentModel ℕ ℕ :=
  ⟨[fun _ => 1, fun _ => 1], [0],
    fun j => if j = 0 then estExB else IssueEstimator.init ({0, 1} : Finset ℕ).card⟩

/-- The two-offer model state is reachable. -/
theorem modelRun_example2 :
    modelRun (OpponentModel.init [(0 : ℕ)] (fun _ => ({0, 1} : Finset ℕ)))
      [fun _ => (1 : ℕ), fun _ => (1 : ℕ)] = some modelEx2 := by
  have hcard : ({0, 1} : Finset ℕ).card = 2 := by decide
  have h1 : (IssueEstimator.init (V := ℕ) ({0, 1} : Finset ℕ).card).update 1 =
      some estExA := by
    rw [hcard]
    exact update_init_two 1
  have h2 : estExA.update 1 = some estExB := update_second_same 1
  have hupd1 : (OpponentModel.init [(0 : ℕ)]
      (fun _ => ({0, 1} : Finset ℕ))).update (fun _ => (1 : ℕ)) =
      some ⟨[fun _ => (1 : ℕ)], [0],
        fun j => if j = 0 then estExA
          else IssueEstimator.init ({0, 1} : Finset ℕ).card⟩ := by
    unfold OpponentModel.update OpponentModel.init updateEstimators
    rw [h1]
    unfold updateEstimators
    simp only [Option.map_some']
    rfl
  have hupd2 : (OpponentModel.mk [fun _ => (1 : ℕ)] [0]
      (fun j => if j = 0 then estExA
        else IssueEstimator.init ({0, 1} : Finset ℕ).card)).update
      (fun _ => (1 : ℕ)) = some modelEx2 := by
    unfold OpponentModel.update updateEstimators
    dsimp only
    have hif : (if (0 : ℕ) = 0 then estExA
        else IssueEstimator.init ({0, 1} : Finset ℕ).card) = estExA := if_pos rfl
    rw [hif, h2]
    unfold updateEstimators
    simp only [Option.map_some']
    refine congrArg some ?_
    unfold modelEx2
    refine congrArg (OpponentModel.mk [fun _ => (1 : ℕ), fun _ => (1 : ℕ)] [0]) ?_
    funext j
    by_cases hj : j = 0 <;> simp [hj]
  unfold modelRun
  rw [hupd1]
  unfold modelRun
  rw [hupd2]
  rfl

/-- C5 (counterexample to the claim as stated): at progress `0` on the single
two-value issue `0`, with own weight `1/2` and own value utilities `3/5`
(value `0`) and `2/5` (value `1`), after the counterpart offered value `1`
twice the code's `find_bid` — which reads the opponent-side weight and value
utility from the agent's own profile — picks value `0`, while the
specification's estimator-consulting scoring picks value `1`. -/
theorem C5_find_bid_ignores_opponent_model :
    modelRun (OpponentModel.init [(0 : ℕ)] (fun _ => ({0, 1} : Finset ℕ)))
      [fun _ => (1 : ℕ), fun _ => (1 : ℕ)] = some modelEx2 ∧
    find_bid02 (fun _ : ℕ => [(0 : ℕ), 1]) 0 (fun _ => (1/2 : ℝ))
      (fun _ v => if v = 0 then (3/5 : ℝ) else 2/5) 0 = some 0 ∧
    find_bid02_spec (fun _ : ℕ => [(0 : ℕ), 1]) 0 (fun _ => (1/2 : ℝ))
      (fun _ v => if v = 0 then (3/5 : ℝ) else 2/5) modelEx2 0 = some 1 ∧
    find_bid02 (fun _ : ℕ => [(0 : ℕ), 1]) 0 (fun _ => (1/2 : ℝ))
      (fun _ v => if v = 0 then (3/5 : ℝ) else 2/5) 0 ≠
      find_bid02_spec (fun _ : ℕ => [(0 : ℕ), 1]) 0 (fun _ => (1/2 : ℝ))
        (fun _ v => if v = 0 then (3/5 : ℝ) else 2/5) modelEx2 0 := by
  have hcode : find_bid02 (fun _ : ℕ => [(0 : ℕ), 1]) 0 (fun _ => (1/2 : ℝ))
      (fun _ v => if v = 0 then (3/5 : ℝ) else 2/5) 0 = some 0 := by
    unfold find_bid02 find_bid_weighted argmax_first
    simp only [List.foldl_cons, List.foldl_nil]
    rw [if_neg]
    norm_num
  have hspec : find_bid02_spec (fun _ : ℕ => [(0 : ℕ), 1]) 0 (fun _ => (1/2 : ℝ))
      (fun _ v => if v = 0 then (3/5 : ℝ) else 2/5) modelEx2 0 = some 1 := by
    unfold find_bid02_spec find_bid_weighted argmax_first
    simp only [List.foldl_cons, List.foldl_nil]
    rw [if_pos]
    norm_num [modelEx2, estExB, IssueEstimator.get_value_utility]
  refine ⟨modelRun_example2, hcode, hspec, ?_⟩
  rw [hcode, hspec]
  simp
